import Mathlib

/-!
Verification development for the `cl-rag` repository (flare_ai_rag services).

The development shallowly embeds the two core components of the repository:

* the merge-aware retriever `semantic_search`
  (`src/deep-search-rag/src/flare_ai_rag/retriever/qdrant_retriever.py` and
   `src/deep-search-rag/src/flare_ai_rag/retriever/pinecone_retriever.py`;
   both files implement the identical grouping/merging/ranking algorithm), and

* the chunking ingestor `_chunk_document` / `generate_collection`
  (`src/fast-rag/src/flare_ai_rag/retriever/qdrant_collection.py` and
   `src/community-search-rag/src/flare_ai_rag/retriever/pinecone_collection.py`;
   the two `_chunk_document` functions are textually identical).

Python strings are embedded as `String` where only equality matters (file and
document names, chunk text carried through the retriever) and as `List Char`
where the character-level algorithm matters (the chunk splitting algorithm).
Similarity scores are floats in the source; only their linear order is ever
used (max, sort), so they are embedded as `Int`.
-/

/-- A raw vector-store hit, as seen by `semantic_search`.

Embeds a Qdrant `ScoredPoint` / Pinecone `match`: `score` plus the payload
fields the retriever reads (`is_chunk`, `filename`, `parent_document`,
`chunk_index`, `text`).  `isCombined`/`numChunks` embed the
`is_combined_chunks`/`num_chunks_combined` payload fields that the merging
step writes into synthetic combined hits; raw hits coming from the store
never carry them (ingestion does not write them), which theorems state as
the hypothesis `h.isCombined = false`. -/
structure Hit where
  score : Int
  isChunk : Bool
  filename : String
  parentDocument : String
  chunkIndex : Nat
  text : String
  isCombined : Bool := false
  numChunks : Nat := 0
  deriving Repr, DecidableEq, Inhabited

/-- A result entry returned by `semantic_search`: the dict
`{"text": ..., "score": ..., "metadata": ...}`.  Of the metadata dict the
development keeps the fields the claims are about: `filename`, and the
human-readable `note` that replaces the `is_combined_chunks` /
`num_chunks_combined` bookkeeping fields (`none` when the entry is not a
combined-chunks entry).  The internal fields `is_chunk`, `chunk_index`,
`total_chunks` and `parent_document` are deleted by the source before the
entry is returned and so do not appear here. -/
structure SearchEntry where
  text : String
  score : Int
  filename : String
  note : Option String
  deriving Repr, DecidableEq

/-- Embeds `chunked_docs[k].append(h)` on the insertion-ordered dict
`chunked_docs : dict[str, list]`, including the
`if k not in chunked_docs: chunked_docs[k] = []` initialisation:
the first entry whose key is `k` gets `h` appended; if there is none, a new
entry `(k, [h])` is appended at the end (Python dicts preserve insertion
order). -/
def dictUpd : List (String × List Hit) → String → Hit → List (String × List Hit)
  | [], k, h => [(k, [h])]
  | (k', l) :: rest, k, h =>
    if k' = k then (k', l ++ [h]) :: rest else (k', l) :: dictUpd rest k h

/-- Embeds `del chunked_docs[k]`: removes the (first) entry with key `k`. -/
def dictDel : List (String × List Hit) → String → List (String × List Hit)
  | [], _ => []
  | (k', l) :: rest, k =>
    if k' = k then rest else (k', l) :: dictDel rest k

/-- Lookup in the ordered dict, defaulting to the empty list. -/
def lookupD : List (String × List Hit) → String → List Hit
  | [], _ => []
  | (k', l) :: rest, k => if k' = k then l else lookupD rest k

/-- The first pass of `semantic_search`: iterate over the raw hits,
collect chunk hits into `chunked_docs` (grouped by `parent_document`,
in arrival order), and whole-document hits into `unique_results`
(first-seen-wins per `filename`, tracked in `parent_documents`); when a
whole-document hit is first seen, any chunk group already collected for its
filename is deleted.  State is `(parent_documents, unique_results,
chunked_docs)`; the Python `set` is embedded as a duplicate-free list, its
membership test being all the code uses. -/
def firstPass : List Hit → List String → List Hit → List (String × List Hit) →
    List String × List Hit × List (String × List Hit)
  | [], pd, ur, cd => (pd, ur, cd)
  | h :: hs, pd, ur, cd =>
    if h.isChunk then
      firstPass hs pd ur (dictUpd cd h.parentDocument h)
    else
      if h.filename ∈ pd then
        firstPass hs pd ur cd
      else
        firstPass hs (pd ++ [h.filename]) (ur ++ [h]) (dictDel cd h.filename)

/-- The ascending `chunk_index` relation used by
`hits.sort(key=lambda x: x.payload.get("chunk_index", 0))`. -/
def idxLe (a b : Hit) : Prop := a.chunkIndex ≤ b.chunkIndex

instance : DecidableRel idxLe := fun a b => Nat.decLe a.chunkIndex b.chunkIndex

instance : IsTotal Hit idxLe := ⟨fun a b => Nat.le_total a.chunkIndex b.chunkIndex⟩

instance : IsTrans Hit idxLe := ⟨fun _ _ _ => Nat.le_trans⟩

/-- The descending-score relation used by
`unique_results.sort(key=lambda x: x.score, reverse=True)`. -/
def scoreGe (a b : Hit) : Prop := b.score ≤ a.score

instance : DecidableRel scoreGe := fun a b => Int.decLe b.score a.score

instance : IsTotal Hit scoreGe := ⟨fun a b => Int.le_total b.score a.score⟩

instance : IsTrans Hit scoreGe := ⟨fun _ _ _ h1 h2 => Int.le_trans h2 h1⟩

/-- Embeds `"\n\n".join(texts)`. -/
def joinTexts : List String → String
  | [] => ""
  | [t] => t
  | t :: ts => t ++ "\n\n" ++ joinTexts ts

/-- Embeds `max([hit.score for hit in hits])`.  The source only evaluates this on
nonempty lists (chunk groups always hold at least one hit); the `[]` case is
an arbitrary total-function default. -/
def maxScore : List Hit → Int
  | [] => 0
  | [h] => h.score
  | h :: hs => max h.score (maxScore hs)

/-- Build the synthetic combined hit for the chunk group `g` of parent
document `p`: sort the group by `chunk_index` ascending (Python `list.sort`
is stable, as is `List.insertionSort` with a `≤`-style total relation),
keep the first 5 (`if len(hits) > 5: hits = hits[:5]`), join the retained
texts with a blank line, take the max score *of the retained hits*, and
copy the payload of `hits[0]` with `filename` overwritten by the parent document
name and the combined-chunks marker fields set.  The source indexes
`hits[0]` on a group that is nonempty by construction; `headD` supplies a
default to stay total. -/
def mkCombined (p : String) (g : List Hit) : Hit :=
  let kept := (List.insertionSort idxLe g).take 5
  { kept.headD default with
    text := joinTexts (kept.map Hit.text)
    filename := p
    score := maxScore kept
    isCombined := true
    numChunks := kept.length }

/-- The second pass of `semantic_search`: iterate over the chunk groups in
dict order; skip a group whose parent already appears in
`parent_documents` (a whole-document hit for it was accepted); otherwise
mark the parent as seen and append the combined hit to `unique_results`. -/
def secondPass (pd : List String) (ur : List Hit) :
    List (String × List Hit) → List Hit
  | [] => ur
  | (p, g) :: rest =>
    if p ∈ pd then secondPass pd ur rest
    else secondPass (pd ++ [p]) (ur ++ [mkCombined p g]) rest

/-- The list `unique_results` after both passes of `semantic_search`: the merged,
deduplicated candidate list, before score sorting and `top_k` truncation. -/
def uniqueResults (hits : List Hit) : List Hit :=
  match firstPass hits [] [] [] with
  | (pd, ur, cd) => secondPass pd ur cd

/-- Build the output dict for one retained hit: text, score, and the
metadata with `is_combined_chunks`/`num_chunks_combined` translated into a
`note` and the internal bookkeeping fields dropped. -/
def toEntry (h : Hit) : SearchEntry :=
  { text := h.text
    score := h.score
    filename := h.filename
    note := if h.isCombined then
        some ("Document combined from " ++ toString h.numChunks ++ " parts")
      else none }

/-- The search `semantic_search`, from the point where the raw vector-store hits are
in hand (the embedding call and the store query are external collaborators;
their combined outcome is the `hits` argument): group and merge chunk hits,
deduplicate against whole-document hits, sort descending by score
(stable, like the Python `reverse=True` sort), truncate to `top_k`, and
format the result entries. -/
def semantic_search (hits : List Hit) (topk : Nat) : List SearchEntry :=
  ((List.insertionSort scoreGe (uniqueResults hits)).take topk).map toEntry

/-- The chunk hits of parent document `p` among the raw hits, in arrival
order: the reference characterisation of `chunked_docs[p]` that the
theorems below relate the pipeline to. -/
def chunksOf (hits : List Hit) (p : String) : List Hit :=
  hits.filter fun h => h.isChunk && h.parentDocument == p

/-- The invariant maintained for `chunked_docs`: every group is nonempty
and holds only chunk hits of its own parent document, all drawn from the
universe `U` of raw hits. -/
def cdInv (U : List Hit) (cd : List (String × List Hit)) : Prop :=
  ∀ pr ∈ cd, pr.2 ≠ [] ∧
    ∀ h ∈ pr.2, h.isChunk = true ∧ h.parentDocument = pr.1 ∧ h ∈ U

/-! ### The chunk-splitting algorithm `_chunk_document`

`src/fast-rag/src/flare_ai_rag/retriever/qdrant_collection.py` lines 32-93
and `src/community-search-rag/src/flare_ai_rag/retriever/pinecone_collection.py`
lines 44-105 (textually identical).  Text is embedded as `List Char`. -/

/-- Prepend a character to the first piece of a split (helper for the
splitting functions; a split result is never empty). -/
def consFirst (a : Char) : List (List Char) → List (List Char)
  | [] => [[a]]
  | p :: ps => (a :: p) :: ps

/-- Embeds `text.split("\n\n")`: greedy left-to-right split on the two-character
separator, keeping empty pieces, (`"x".split(s)` is `["x"]` even when `x`
is empty). -/
def splitPara : List Char → List (List Char)
  | [] => [[]]
  | [c] => [[c]]
  | a :: b :: rest =>
    if a = '\n' ∧ b = '\n' then [] :: splitPara rest
    else consFirst a (splitPara (b :: rest))

/-- Embeds a split at single newlines (`s.split` at the newline character): split on a single newline, keeping empty pieces. -/
def splitNl : List Char → List (List Char)
  | [] => [[]]
  | c :: rest =>
    if c = '\n' then [] :: splitNl rest
    else consFirst c (splitNl rest)

/-- Embeds the replacement of a period-space pair by a period-newline pair
(`para.replace` with those two arguments): left-to-right, non-overlapping. -/
def replDot : List Char → List Char
  | [] => []
  | [c] => [c]
  | a :: b :: rest =>
    if a = '.' ∧ b = ' ' then '.' :: '\n' :: replDot rest
    else a :: replDot (b :: rest)

/-- Embeds `"\n\n".join(pieces)` on character lists (inverse of `splitPara`). -/
def joinPara : List (List Char) → List Char
  | [] => []
  | [p] => p
  | p :: ps => p ++ '\n' :: '\n' :: joinPara ps

/-- The inner sentence loop of `_chunk_document`: greedily accumulate
sentences into `sub_chunk`; when appending the next sentence (plus a
1-character separator) would exceed `max_size`, flush `sub_chunk` (even
when empty — the source appends unconditionally there) and restart from the
sentence.  Accumulation joins with a single space.  Returns the updated
`(chunks, sub_chunk)`. -/
def sentLoop (maxSize : Nat) : List (List Char) → List (List Char) → List Char →
    List (List Char) × List Char
  | [], chunks, sub => (chunks, sub)
  | s :: ss, chunks, sub =>
    if sub.length + s.length + 1 > maxSize then
      sentLoop maxSize ss (chunks ++ [sub]) s
    else
      sentLoop maxSize ss chunks (if sub = [] then s else sub ++ ' ' :: s)

/-- The outer paragraph loop of `_chunk_document`: greedily accumulate
paragraphs into `current_chunk` (joined with a blank line); when appending
the next paragraph (plus a 2-character separator) would exceed `max_size`,
flush the nonempty buffer; an oversized paragraph is further split at
sentence boundaries (period-space replaced by period-newline, then split
at newlines) by
`sentLoop`, whose trailing `sub_chunk` becomes the new buffer.  Returns the
final `(chunks, current_chunk)`. -/
def chunkLoop (maxSize : Nat) : List (List Char) → List (List Char) → List Char →
    List (List Char) × List Char
  | [], chunks, current => (chunks, current)
  | para :: ps, chunks, current =>
    if current.length + para.length + 2 > maxSize then
      let chunks1 := if current = [] then chunks else chunks ++ [current]
      if para.length > maxSize then
        let r := sentLoop maxSize (splitNl (replDot para)) chunks1 []
        chunkLoop maxSize ps r.1 r.2
      else
        chunkLoop maxSize ps chunks1 para
    else
      chunkLoop maxSize ps chunks
        (if current = [] then para else current ++ '\n' :: '\n' :: para)

/-- Embeds `_chunk_document(text, max_chunk_size)`: a text no longer than
`max_chunk_size` is returned as the single chunk `[text]`; otherwise the
text is split at blank-line paragraph boundaries and processed by
`chunkLoop`, and a nonempty trailing buffer is flushed as the final
chunk. -/
def chunkDocument (maxSize : Nat) (text : List Char) : List (List Char) :=
  if text.length ≤ maxSize then [text]
  else
    let r := chunkLoop maxSize (splitPara text) [] []
    if r.2 = [] then r.1 else r.1 ++ [r.2]

/-- The constant `MAX_CHUNK_SIZE = 5000` of both collection modules. -/
def MAX_CHUNK_SIZE : Nat := 5000

/-! ### Whitespace-normalised content -/

/-- The characters the splitting algorithm never touches: everything except
the space and the newline (the only characters `_chunk_document` inserts or
removes at split boundaries). -/
def isContentChar (c : Char) : Bool := !(c == ' ' || c == '\n')

/-- The whitespace-normalised content of a text: its characters with spaces
and newlines removed. -/
def nonWs (l : List Char) : List Char := l.filter isContentChar

/-! ### Failure handling of `semantic_search` (C3) -/

/-- Embeds `QdrantRetriever.semantic_search`
(`src/deep-search-rag/src/flare_ai_rag/retriever/qdrant_retriever.py`):
the body contains no `try`/`except`, so a failure raised by the embedding
call or the Qdrant query propagates to the caller.  The outcome of the two
external calls is abstracted into the `backend` argument: `ok hits` when
they return the raw hit list, `error e` when either raises. -/
def qdrant_search_outcome (backend : Except String (List Hit)) (topk : Nat) :
    Except String (List SearchEntry) :=
  match backend with
  | Except.error e => Except.error e
  | Except.ok hits => Except.ok (semantic_search hits topk)

/-- Embeds `PineconeRetriever.semantic_search`
(`src/deep-search-rag/src/flare_ai_rag/retriever/pinecone_retriever.py`):
the whole body runs inside `try: ... except Exception: return []`, and the
Pinecone query additionally has an inner handler that also returns `[]`,
so a backend failure yields a normal empty result. -/
def pinecone_search_outcome (backend : Except String (List Hit)) (topk : Nat) :
    Except String (List SearchEntry) :=
  match backend with
  | Except.error _ => Except.ok []
  | Except.ok hits => Except.ok (semantic_search hits topk)

/-! ### Ingestion entry points (C4) -/

/-- Embeds `generate_collection` of
`src/community-search-rag/src/flare_ai_rag/retriever/pinecone_collection.py`,
viewed at the level of the stored vector set: `_create_index` reuses an
existing index, then `describe_index_stats` is consulted and a non-zero
`total_vector_count` makes the routine return before any upsert; otherwise
every produced record is upserted into the (empty) index.  `existing` is
the list of stored vectors, `toWrite` the records the embedding pipeline
would produce for the document batch. -/
def pinecone_generate_collection (existing toWrite : List Nat) : List Nat :=
  if 0 < existing.length then existing else existing ++ toWrite

/-- Embeds `generate_collection` of
`src/fast-rag/src/flare_ai_rag/retriever/qdrant_collection.py`: it begins
with `_create_collection`, which calls `client.recreate_collection`
unconditionally — dropping every stored vector — and then upserts the newly
produced points; no vector-count check is performed. -/
def qdrant_generate_collection (_existing toWrite : List Nat) : List Nat :=
  toWrite

/-! ### Chunk records written by the chunking fallback (C5) -/

/-- One vector record written for a chunk by the ingestion fallback:
the payload/metadata fields carrying the chunk linkage. -/
structure ChunkRecord where
  filename : String
  chunkIndex : Nat
  totalChunks : Nat
  parentDocument : String
  text : List Char
  deriving Repr, DecidableEq

/-- The chunk records written by the chunking fallback of
`generate_collection` in
`src/community-search-rag/src/flare_ai_rag/retriever/pinecone_collection.py`:
for `i, chunk in enumerate(chunks)` the upserted metadata is
`filename = f"{file_name} [Part {i+1}/{len(chunks)}]"`, `chunk_index = i`,
`total_chunks = len(chunks)`, `parent_document = file_name`.  The records
are as written when every chunk embedding succeeds; a chunk whose embedding
raises is skipped by the source. -/
def pinecone_chunk_records (fileName : String) (chunks : List (List Char)) :
    List ChunkRecord :=
  ((List.range chunks.length).zip chunks).map fun ic =>
    { filename := fileName ++ " [Part " ++ toString (ic.1 + 1) ++ "/" ++
        toString chunks.length ++ "]"
      chunkIndex := ic.1
      totalChunks := chunks.length
      parentDocument := fileName
      text := ic.2 }

/-- The chunk records written by the chunking fallback of
`generate_collection` in
`src/fast-rag/src/flare_ai_rag/retriever/qdrant_collection.py`: identical
except that the payload stores `"chunk_index": i+1`. -/
def qdrant_chunk_records (fileName : String) (chunks : List (List Char)) :
    List ChunkRecord :=
  ((List.range chunks.length).zip chunks).map fun ic =>
    { filename := fileName ++ " [Part " ++ toString (ic.1 + 1) ++ "/" ++
        toString chunks.length ++ "]"
      chunkIndex := ic.1 + 1
      totalChunks := chunks.length
      parentDocument := fileName
      text := ic.2 }

/-! ### Concrete inputs used by counterexamples and witnesses -/

/-- Six chunk hits of the same parent document `"d"`, arriving in
chunk-index order; the sixth (highest-index) chunk carries the highest
score of the group. -/
def hits6 : List Hit :=
  [ { score := 10, isChunk := true, filename := "d [Part 1/6]",
      parentDocument := "d", chunkIndex := 1, text := "t1" },
    { score := 9, isChunk := true, filename := "d [Part 2/6]",
      parentDocument := "d", chunkIndex := 2, text := "t2" },
    { score := 8, isChunk := true, filename := "d [Part 3/6]",
      parentDocument := "d", chunkIndex := 3, text := "t3" },
    { score := 7, isChunk := true, filename := "d [Part 4/6]",
      parentDocument := "d", chunkIndex := 4, text := "t4" },
    { score := 6, isChunk := true, filename := "d [Part 5/6]",
      parentDocument := "d", chunkIndex := 5, text := "t5" },
    { score := 100, isChunk := true, filename := "d [Part 6/6]",
      parentDocument := "d", chunkIndex := 6, text := "t6" } ]

/-- A whole-document hit for `"b"` scoring above a whole-document hit for
`"f"`, plus a chunk hit whose parent is `"f"`. -/
def hitsC6 : List Hit :=
  [ { score := 100, isChunk := false, filename := "b",
      parentDocument := "", chunkIndex := 0, text := "doc b" },
    { score := 1, isChunk := false, filename := "f",
      parentDocument := "", chunkIndex := 0, text := "doc f" },
    { score := 2, isChunk := true, filename := "f [Part 1/2]",
      parentDocument := "f", chunkIndex := 1, text := "f1" } ]

/-- The merged result entry that `semantic_search` produces for `hits6`. -/
def entry6 : SearchEntry := toEntry (mkCombined "d" (chunksOf hits6 "d"))

/-! ### Lemmas -/

/-! ### Lemmas about the ordered-dict operations -/

theorem lookupD_dictUpd_self (cd : List (String × List Hit)) (k : String) (h : Hit) :
    lookupD (dictUpd cd k h) k = lookupD cd k ++ [h] := by
  induction cd with
  | nil => simp [dictUpd, lookupD]
  | cons e rest ih =>
    obtain ⟨k', l⟩ := e
    by_cases hk : k' = k
    · simp [dictUpd, lookupD, hk]
    · simp [dictUpd, lookupD, hk, ih]

theorem lookupD_dictUpd_ne (cd : List (String × List Hit)) (k p : String) (h : Hit)
    (hne : k ≠ p) : lookupD (dictUpd cd k h) p = lookupD cd p := by
  induction cd with
  | nil => simp [dictUpd, lookupD, hne]
  | cons e rest ih =>
    obtain ⟨k', l⟩ := e
    by_cases hk : k' = k
    · subst hk
      simp [dictUpd, lookupD, hne]
    · simp [dictUpd, lookupD, hk, ih]

theorem lookupD_dictDel_ne (cd : List (String × List Hit)) (k p : String)
    (hne : k ≠ p) : lookupD (dictDel cd k) p = lookupD cd p := by
  induction cd with
  | nil => simp [dictDel]
  | cons e rest ih =>
    obtain ⟨k', l⟩ := e
    by_cases hk : k' = k
    · subst hk
      simp [dictDel, lookupD, hne, ih]
    · simp [dictDel, lookupD, hk, ih]

theorem dictDel_subset (cd : List (String × List Hit)) (k : String) :
    ∀ pr ∈ dictDel cd k, pr ∈ cd := by
  induction cd with
  | nil => simp [dictDel]
  | cons e rest ih =>
    obtain ⟨k', l⟩ := e
    by_cases hk : k' = k
    · intro pr hpr
      simp only [dictDel, if_pos hk] at hpr
      exact List.mem_cons_of_mem _ hpr
    · intro pr hpr
      simp only [dictDel, if_neg hk] at hpr
      rcases List.mem_cons.mp hpr with h1 | h1
      · exact h1 ▸ List.mem_cons_self _ _
      · exact List.mem_cons_of_mem _ (ih pr h1)

theorem cdInv_dictUpd (U : List Hit) (cd : List (String × List Hit)) (h : Hit)
    (hc : h.isChunk = true) (hU : h ∈ U) (hinv : cdInv U cd) :
    cdInv U (dictUpd cd h.parentDocument h) := by
  induction cd with
  | nil =>
    intro pr hpr
    simp only [dictUpd, List.mem_singleton] at hpr
    subst hpr
    exact ⟨by simp, by intro x hx; simp at hx; subst hx; exact ⟨hc, rfl, hU⟩⟩
  | cons e rest ih =>
    obtain ⟨k', l⟩ := e
    by_cases hk : k' = h.parentDocument
    · intro pr hpr
      simp only [dictUpd, if_pos hk] at hpr
      rcases List.mem_cons.mp hpr with h1 | h1
      · subst h1
        have hbase := hinv (k', l) (List.mem_cons_self _ _)
        refine ⟨by simp, ?_⟩
        intro x hx
        rcases List.mem_append.mp hx with h2 | h2
        · exact hbase.2 x h2
        · simp only [List.mem_singleton] at h2
          subst h2
          exact ⟨hc, hk.symm, hU⟩
      · exact hinv pr (List.mem_cons_of_mem _ h1)
    · intro pr hpr
      simp only [dictUpd, if_neg hk] at hpr
      rcases List.mem_cons.mp hpr with h1 | h1
      · exact h1 ▸ hinv (k', l) (List.mem_cons_self _ _)
      · exact ih (fun q hq => hinv q (List.mem_cons_of_mem _ hq)) pr h1

theorem cdInv_dictDel (U : List Hit) (cd : List (String × List Hit)) (k : String)
    (hinv : cdInv U cd) : cdInv U (dictDel cd k) :=
  fun pr hpr => hinv pr (dictDel_subset cd k pr hpr)

theorem cdInv_mono (U U' : List Hit) (cd : List (String × List Hit))
    (hsub : ∀ h ∈ U, h ∈ U') (hinv : cdInv U cd) : cdInv U' cd := by
  intro pr hpr
  refine ⟨(hinv pr hpr).1, fun h hh => ?_⟩
  obtain ⟨h1, h2, h3⟩ := (hinv pr hpr).2 h hh
  exact ⟨h1, h2, hsub h h3⟩

/-! ### Lemmas about the first pass -/

theorem firstPass_pd_mono (hits : List Hit) (pd : List String) (ur : List Hit)
    (cd : List (String × List Hit)) :
    ∀ q ∈ pd, q ∈ (firstPass hits pd ur cd).1 := by
  induction hits generalizing pd ur cd with
  | nil => simp [firstPass]
  | cons h hs ih =>
    intro q hq
    by_cases hc : h.isChunk
    · simpa [firstPass, hc] using ih _ _ _ q hq
    · by_cases hf : h.filename ∈ pd
      · simpa [firstPass, hc, hf] using ih _ _ _ q hq
      · simpa [firstPass, hc, hf] using
          ih (pd ++ [h.filename]) _ _ q (List.mem_append_left _ hq)

theorem firstPass_ur_mono (hits : List Hit) (pd : List String) (ur : List Hit)
    (cd : List (String × List Hit)) :
    ∀ e ∈ ur, e ∈ (firstPass hits pd ur cd).2.1 := by
  induction hits generalizing pd ur cd with
  | nil => simp [firstPass]
  | cons h hs ih =>
    intro e he
    by_cases hc : h.isChunk
    · simpa [firstPass, hc] using ih _ _ _ e he
    · by_cases hf : h.filename ∈ pd
      · simpa [firstPass, hc, hf] using ih _ _ _ e he
      · simpa [firstPass, hc, hf] using
          ih _ (ur ++ [h]) _ e (List.mem_append_left _ he)

theorem firstPass_pd_src (hits : List Hit) (pd : List String) (ur : List Hit)
    (cd : List (String × List Hit)) :
    ∀ q ∈ (firstPass hits pd ur cd).1,
      q ∈ pd ∨ ∃ h ∈ hits, h.isChunk = false ∧ h.filename = q := by
  induction hits generalizing pd ur cd with
  | nil => simp [firstPass]
  | cons h hs ih =>
    intro q hq
    by_cases hc : h.isChunk
    · rcases ih _ _ _ q (by simpa [firstPass, hc] using hq) with h1 | ⟨x, hx, hx2⟩
      · exact Or.inl h1
      · exact Or.inr ⟨x, List.mem_cons_of_mem _ hx, hx2⟩
    · by_cases hf : h.filename ∈ pd
      · rcases ih _ _ _ q (by simpa [firstPass, hc, hf] using hq) with h1 | ⟨x, hx, hx2⟩
        · exact Or.inl h1
        · exact Or.inr ⟨x, List.mem_cons_of_mem _ hx, hx2⟩
      · rcases ih (pd ++ [h.filename]) _ _ q
          (by simpa [firstPass, hc, hf] using hq) with h1 | ⟨x, hx, hx2⟩
        · rcases List.mem_append.mp h1 with h2 | h2
          · exact Or.inl h2
          · simp only [List.mem_singleton] at h2
            exact Or.inr ⟨h, List.mem_cons_self _ _, by simpa [hc] using h2.symm⟩
        · exact Or.inr ⟨x, List.mem_cons_of_mem _ hx, hx2⟩

theorem firstPass_pd_complete (hits : List Hit) (pd : List String) (ur : List Hit)
    (cd : List (String × List Hit)) :
    ∀ h ∈ hits, h.isChunk = false → h.filename ∈ (firstPass hits pd ur cd).1 := by
  induction hits generalizing pd ur cd with
  | nil => simp
  | cons h hs ih =>
    intro x hx hxc
    rcases List.mem_cons.mp hx with h1 | h1
    · subst h1
      have hc : ¬ x.isChunk := by simp [hxc]
      by_cases hf : x.filename ∈ pd
      · simp only [firstPass, if_neg hc, if_pos hf]
        exact firstPass_pd_mono _ _ _ _ _ hf
      · simp only [firstPass, if_neg hc, if_neg hf]
        exact firstPass_pd_mono _ _ _ _ _ (List.mem_append_right _ (by simp))
    · by_cases hc : h.isChunk
      · simpa [firstPass, hc] using ih _ _ _ x h1 hxc
      · by_cases hf : h.filename ∈ pd
        · simpa [firstPass, hc, hf] using ih _ _ _ x h1 hxc
        · simpa [firstPass, hc, hf] using ih _ _ _ x h1 hxc

theorem firstPass_ur_covers (hits : List Hit) (pd : List String) (ur : List Hit)
    (cd : List (String × List Hit))
    (hinv : ∀ q ∈ pd, ∃ e ∈ ur, e.filename = q ∧ e.isChunk = false) :
    ∀ q ∈ (firstPass hits pd ur cd).1,
      ∃ e ∈ (firstPass hits pd ur cd).2.1, e.filename = q ∧ e.isChunk = false := by
  induction hits generalizing pd ur cd with
  | nil => simpa [firstPass] using hinv
  | cons h hs ih =>
    by_cases hc : h.isChunk
    · simpa [firstPass, hc] using ih _ _ _ hinv
    · by_cases hf : h.filename ∈ pd
      · simpa [firstPass, hc, hf] using ih _ _ _ hinv
      · simp only [firstPass, if_neg hc, if_pos hf, if_neg hf]
        refine ih _ _ _ ?_
        intro q hq
        rcases List.mem_append.mp hq with h1 | h1
        · obtain ⟨e, he, he2⟩ := hinv q h1
          exact ⟨e, List.mem_append_left _ he, he2⟩
        · simp only [List.mem_singleton] at h1
          exact ⟨h, List.mem_append_right _ (by simp), h1.symm, by simpa using hc⟩

theorem firstPass_ur_src (hits : List Hit) (pd : List String) (ur : List Hit)
    (cd : List (String × List Hit)) :
    ∀ e ∈ (firstPass hits pd ur cd).2.1, e ∈ ur ∨ e ∈ hits := by
  induction hits generalizing pd ur cd with
  | nil => simp [firstPass]
  | cons h hs ih =>
    intro e he
    by_cases hc : h.isChunk
    · rcases ih _ _ _ e (by simpa [firstPass, hc] using he) with h1 | h1
      · exact Or.inl h1
      · exact Or.inr (List.mem_cons_of_mem _ h1)
    · by_cases hf : h.filename ∈ pd
      · rcases ih _ _ _ e (by simpa [firstPass, hc, hf] using he) with h1 | h1
        · exact Or.inl h1
        · exact Or.inr (List.mem_cons_of_mem _ h1)
      · rcases ih _ (ur ++ [h]) _ e (by simpa [firstPass, hc, hf] using he) with h1 | h1
        · rcases List.mem_append.mp h1 with h2 | h2
          · exact Or.inl h2
          · simp only [List.mem_singleton] at h2
            exact Or.inr (h2 ▸ List.mem_cons_self _ _)
        · exact Or.inr (List.mem_cons_of_mem _ h1)

theorem firstPass_cd_lookup (hits : List Hit) (pd : List String) (ur : List Hit)
    (cd : List (String × List Hit)) (p : String)
    (hW : ∀ h ∈ hits, h.isChunk = false → h.filename ≠ p) :
    lookupD (firstPass hits pd ur cd).2.2 p = lookupD cd p ++ chunksOf hits p := by
  induction hits generalizing pd ur cd with
  | nil => simp [firstPass, chunksOf]
  | cons h hs ih =>
    have hWs : ∀ x ∈ hs, x.isChunk = false → x.filename ≠ p :=
      fun x hx => hW x (List.mem_cons_of_mem _ hx)
    by_cases hc : h.isChunk
    · by_cases hp : h.parentDocument = p
      · have := ih pd ur (dictUpd cd h.parentDocument h) hWs
        simp only [firstPass, if_pos hc] at *
        rw [this, hp, lookupD_dictUpd_self]
        simp [chunksOf, List.filter_cons, hc, hp]
      · have := ih pd ur (dictUpd cd h.parentDocument h) hWs
        simp only [firstPass, if_pos hc] at *
        rw [this, lookupD_dictUpd_ne _ _ _ _ hp]
        simp [chunksOf, List.filter_cons, hc, hp]
    · have hfp : h.filename ≠ p := hW h (List.mem_cons_self _ _) (by simpa using hc)
      by_cases hf : h.filename ∈ pd
      · have := ih pd ur cd hWs
        simp only [firstPass, if_neg hc, if_pos hf] at *
        rw [this]
        simp [chunksOf, List.filter_cons, hc]
      · have := ih (pd ++ [h.filename]) (ur ++ [h]) (dictDel cd h.filename) hWs
        simp only [firstPass, if_neg hc, if_neg hf] at *
        rw [this, lookupD_dictDel_ne _ _ _ hfp]
        simp [chunksOf, List.filter_cons, hc]

theorem firstPass_cdInv (hits : List Hit) (pd : List String) (ur : List Hit)
    (cd : List (String × List Hit)) (U : List Hit)
    (hU : ∀ h ∈ hits, h ∈ U) (hinv : cdInv U cd) :
    cdInv U (firstPass hits pd ur cd).2.2 := by
  induction hits generalizing pd ur cd with
  | nil => simpa [firstPass] using hinv
  | cons h hs ih =>
    have hUs : ∀ x ∈ hs, x ∈ U := fun x hx => hU x (List.mem_cons_of_mem _ hx)
    by_cases hc : h.isChunk
    · simp only [firstPass, if_pos hc]
      exact ih _ _ _ hUs
        (cdInv_dictUpd U cd h (by simpa using hc) (hU h (List.mem_cons_self _ _)) hinv)
    · by_cases hf : h.filename ∈ pd
      · simp only [firstPass, if_neg hc, if_pos hf]
        exact ih _ _ _ hUs hinv
      · simp only [firstPass, if_neg hc, if_neg hf]
        exact ih _ _ _ hUs (cdInv_dictDel U cd h.filename hinv)

/-! ### Lemmas about the second pass -/

theorem secondPass_ur_mono (cd : List (String × List Hit)) (pd : List String)
    (ur : List Hit) : ∀ e ∈ ur, e ∈ secondPass pd ur cd := by
  induction cd generalizing pd ur with
  | nil => simp [secondPass]
  | cons e rest ih =>
    obtain ⟨p, g⟩ := e
    intro x hx
    by_cases hp : p ∈ pd
    · simpa [secondPass, hp] using ih _ _ x hx
    · simpa [secondPass, hp] using ih _ (ur ++ [mkCombined p g]) x (List.mem_append_left _ hx)

theorem secondPass_emits (cd : List (String × List Hit)) (pd : List String)
    (ur : List Hit) (p : String) (hp : p ∉ pd) (hg : lookupD cd p ≠ []) :
    mkCombined p (lookupD cd p) ∈ secondPass pd ur cd := by
  induction cd generalizing pd ur with
  | nil => simp [lookupD] at hg
  | cons e rest ih =>
    obtain ⟨k, g⟩ := e
    by_cases hk : k = p
    · subst hk
      simp only [lookupD, if_pos rfl] at hg ⊢
      simp only [secondPass, if_neg hp]
      exact secondPass_ur_mono _ _ _ _ (List.mem_append_right _ (by simp))
    · simp only [lookupD, if_neg hk] at hg ⊢
      by_cases hkpd : k ∈ pd
      · simpa [secondPass, hkpd] using ih _ _ hp hg
      · simp only [secondPass, if_neg hkpd]
        refine ih (pd ++ [k]) _ ?_ hg
        intro hmem
        rcases List.mem_append.mp hmem with h1 | h1
        · exact hp h1
        · simp only [List.mem_singleton] at h1
          exact hk h1.symm

theorem secondPass_src (cd : List (String × List Hit)) (pd : List String)
    (ur : List Hit) :
    ∀ e ∈ secondPass pd ur cd,
      e ∈ ur ∨ ∃ p g, (p, g) ∈ cd ∧ e = mkCombined p g := by
  induction cd generalizing pd ur with
  | nil => simp [secondPass]
  | cons pr rest ih =>
    obtain ⟨p, g⟩ := pr
    intro e he
    by_cases hp : p ∈ pd
    · rcases ih _ _ e (by simpa [secondPass, hp] using he) with h1 | ⟨q, l, hql, hq2⟩
      · exact Or.inl h1
      · exact Or.inr ⟨q, l, List.mem_cons_of_mem _ hql, hq2⟩
    · rcases ih _ (ur ++ [mkCombined p g]) e (by simpa [secondPass, hp] using he)
        with h1 | ⟨q, l, hql, hq2⟩
      · rcases List.mem_append.mp h1 with h2 | h2
        · exact Or.inl h2
        · simp only [List.mem_singleton] at h2
          exact Or.inr ⟨p, g, List.mem_cons_self _ _, h2⟩
      · exact Or.inr ⟨q, l, List.mem_cons_of_mem _ hql, hq2⟩

theorem secondPass_filename_seen (cd : List (String × List Hit)) (pd : List String)
    (ur : List Hit) (f : String) (hf : f ∈ pd) :
    ∀ e ∈ secondPass pd ur cd, e.filename = f → e ∈ ur := by
  induction cd generalizing pd ur with
  | nil => intro e he _; simpa [secondPass] using he
  | cons pr rest ih =>
    obtain ⟨p, g⟩ := pr
    intro e he hef
    by_cases hp : p ∈ pd
    · exact ih _ _ hf e (by simpa [secondPass, hp] using he) hef
    · have := ih (pd ++ [p]) (ur ++ [mkCombined p g]) (List.mem_append_left _ hf) e
        (by simpa [secondPass, hp] using he) hef
      rcases List.mem_append.mp this with h1 | h1
      · exact h1
      · simp only [List.mem_singleton] at h1
        exfalso
        have hep : e.filename = p := by rw [h1]; simp [mkCombined]
        have hpf : p = f := hep.symm.trans hef
        exact hp (by rw [hpf]; exact hf)

/-! ### Structural lemmas for the splitting primitives -/

theorem consFirst_ne_nil (a : Char) (xs : List (List Char)) : consFirst a xs ≠ [] := by
  cases xs <;> simp [consFirst]

theorem splitPara_ne_nil : ∀ l : List Char, splitPara l ≠ []
  | [] => by simp [splitPara]
  | [c] => by simp [splitPara]
  | a :: b :: rest => by
    by_cases h : a = '\n' ∧ b = '\n'
    · simp [splitPara, h]
    · simp only [splitPara, if_neg h]
      exact consFirst_ne_nil _ _

theorem joinPara_consFirst (a : Char) (xs : List (List Char)) (hne : xs ≠ []) :
    joinPara (consFirst a xs) = a :: joinPara xs := by
  match xs with
  | [] => exact absurd rfl hne
  | [p] => simp [consFirst, joinPara]
  | p :: q :: ps => simp [consFirst, joinPara]

/-- The roundtrip `"\n\n".join(text.split("\n\n")) == text`: the paragraph split is
lossless. -/
theorem joinPara_splitPara : ∀ l : List Char, joinPara (splitPara l) = l
  | [] => by simp [splitPara, joinPara]
  | [c] => by simp [splitPara, joinPara]
  | a :: b :: rest => by
    by_cases h : a = '\n' ∧ b = '\n'
    · obtain ⟨h1, h2⟩ := h
      subst h1
      subst h2
      have ih := joinPara_splitPara rest
      have hcond : ('\n' : Char) = '\n' ∧ ('\n' : Char) = '\n' := ⟨rfl, rfl⟩
      simp only [splitPara, if_pos hcond]
      cases hsp : splitPara rest with
      | nil => exact absurd hsp (splitPara_ne_nil rest)
      | cons p ps =>
        rw [hsp] at ih
        simp [joinPara, ih]
    · have ih := joinPara_splitPara (b :: rest)
      simp only [splitPara, if_neg h]
      rw [joinPara_consFirst _ _ (splitPara_ne_nil _), ih]

theorem nonWs_append (a b : List Char) : nonWs (a ++ b) = nonWs a ++ nonWs b :=
  List.filter_append ..

theorem nonWs_nil : nonWs [] = [] := rfl

theorem nonWs_cons (c : Char) (l : List Char) :
    nonWs (c :: l) = if isContentChar c then c :: nonWs l else nonWs l :=
  List.filter_cons ..

theorem nonWs_space_cons (l : List Char) : nonWs (' ' :: l) = nonWs l := by
  simp [nonWs, List.filter_cons, isContentChar]

theorem nonWs_newline_cons (l : List Char) : nonWs ('\n' :: l) = nonWs l := by
  simp [nonWs, List.filter_cons, isContentChar]

theorem flatten_consFirst (a : Char) (xs : List (List Char)) :
    (consFirst a xs).flatten = a :: xs.flatten := by
  cases xs <;> simp [consFirst]

theorem nonWs_flatten_splitNl (l : List Char) :
    nonWs (splitNl l).flatten = nonWs l := by
  induction l with
  | nil => simp [splitNl]
  | cons c rest ih =>
    by_cases hc : c = '\n'
    · subst hc
      simp [splitNl, nonWs_newline_cons, ih]
    · simp [splitNl, hc, flatten_consFirst, nonWs_cons, ih]

theorem nonWs_replDot : ∀ l : List Char, nonWs (replDot l) = nonWs l
  | [] => rfl
  | [c] => rfl
  | a :: b :: rest => by
    by_cases h : a = '.' ∧ b = ' '
    · obtain ⟨h1, h2⟩ := h
      subst h1
      subst h2
      have ih := nonWs_replDot rest
      simp [replDot, nonWs_cons, nonWs_newline_cons, nonWs_space_cons, isContentChar, ih]
    · have ih := nonWs_replDot (b :: rest)
      simp only [replDot, if_neg h]
      simp [nonWs_cons, ih]

theorem nonWs_joinPara : ∀ xs : List (List Char), nonWs (joinPara xs) = nonWs xs.flatten
  | [] => rfl
  | [p] => by simp [joinPara]
  | p :: q :: ps => by
    have ih := nonWs_joinPara (q :: ps)
    simp [joinPara, nonWs_append, nonWs_newline_cons, ih]

theorem nonWs_flatten_splitPara (l : List Char) :
    nonWs (splitPara l).flatten = nonWs l := by
  conv_rhs => rw [← joinPara_splitPara l]
  rw [nonWs_joinPara]

/-! ### Content preservation through the chunk loops -/

theorem sentLoop_nonWs (maxSize : Nat) :
    ∀ (ss chunks : List (List Char)) (sub : List Char),
      nonWs (sentLoop maxSize ss chunks sub).1.flatten ++
        nonWs (sentLoop maxSize ss chunks sub).2 =
      nonWs chunks.flatten ++ nonWs sub ++ nonWs ss.flatten := by
  intro ss
  induction ss with
  | nil => intro chunks sub; simp [sentLoop, nonWs_nil]
  | cons s ss ih =>
    intro chunks sub
    by_cases hc : sub.length + s.length + 1 > maxSize
    · simp only [sentLoop, if_pos hc]
      rw [ih]
      simp [nonWs_append, List.append_assoc]
    · simp only [sentLoop, if_neg hc]
      rw [ih]
      by_cases hs : sub = []
      · simp [hs, nonWs_append, nonWs_nil, List.append_assoc]
      · simp [hs, nonWs_append, nonWs_space_cons, List.append_assoc]

theorem chunkLoop_nonWs (maxSize : Nat) :
    ∀ (ps chunks : List (List Char)) (current : List Char),
      nonWs (chunkLoop maxSize ps chunks current).1.flatten ++
        nonWs (chunkLoop maxSize ps chunks current).2 =
      nonWs chunks.flatten ++ nonWs current ++ nonWs ps.flatten := by
  intro ps
  induction ps with
  | nil => intro chunks current; simp [chunkLoop, nonWs_nil]
  | cons para ps ih =>
    intro chunks current
    by_cases hover : current.length + para.length + 2 > maxSize
    · by_cases hbig : para.length > maxSize
      · simp only [chunkLoop, if_pos hover, if_pos hbig]
        rw [ih]
        have hs := sentLoop_nonWs maxSize (splitNl (replDot para))
          (if current = [] then chunks else chunks ++ [current]) []
        rw [nonWs_flatten_splitNl, nonWs_replDot] at hs
        have : nonWs (sentLoop maxSize (splitNl (replDot para))
            (if current = [] then chunks else chunks ++ [current]) []).1.flatten ++
            nonWs (sentLoop maxSize (splitNl (replDot para))
            (if current = [] then chunks else chunks ++ [current]) []).2 =
            nonWs chunks.flatten ++ nonWs current ++ nonWs para := by
          rw [hs]
          by_cases hcur : current = []
          · simp [hcur, nonWs_nil]
          · simp [hcur, nonWs_append, nonWs_nil, List.append_assoc]
        calc nonWs (sentLoop maxSize (splitNl (replDot para))
              (if current = [] then chunks else chunks ++ [current]) []).1.flatten ++
              nonWs (sentLoop maxSize (splitNl (replDot para))
              (if current = [] then chunks else chunks ++ [current]) []).2 ++
              nonWs ps.flatten
            = nonWs chunks.flatten ++ nonWs current ++ nonWs para ++ nonWs ps.flatten := by
              rw [this]
          _ = nonWs chunks.flatten ++ nonWs current ++ nonWs (para :: ps).flatten := by
              simp [nonWs_append, List.append_assoc]
      · simp only [chunkLoop, if_pos hover, if_neg hbig]
        rw [ih]
        by_cases hcur : current = []
        · simp [hcur, nonWs_append, nonWs_nil, List.append_assoc]
        · simp [hcur, nonWs_append, List.append_assoc]
    · simp only [chunkLoop, if_neg hover]
      rw [ih]
      by_cases hcur : current = []
      · simp [hcur, nonWs_append, nonWs_nil, List.append_assoc]
      · simp [hcur, nonWs_append, nonWs_newline_cons, List.append_assoc]

/-- Concatenating the chunks of `_chunk_document` preserves the
whitespace-normalised content of the input text. -/
theorem chunkDocument_nonWs (maxSize : Nat) (t : List Char) :
    nonWs (chunkDocument maxSize t).flatten = nonWs t := by
  by_cases hsmall : t.length ≤ maxSize
  · simp [chunkDocument, hsmall]
  · have h := chunkLoop_nonWs maxSize (splitPara t) [] []
    rw [nonWs_flatten_splitPara] at h
    simp only [chunkDocument, if_neg hsmall]
    by_cases hcur : (chunkLoop maxSize (splitPara t) [] []).2 = []
    · simp only [hcur, if_pos rfl]
      simpa [hcur, nonWs_nil] using h
    · simp only [if_neg hcur]
      rw [List.flatten_append, nonWs_append]
      simpa [nonWs_nil] using h

/-! ### Length bounds through the chunk loops -/

theorem sentLoop_bound (maxSize : Nat) (Q : List Char → Prop)
    (hQlen : ∀ c : List Char, c.length ≤ maxSize → Q c) :
    ∀ (ss chunks : List (List Char)) (sub : List Char),
      (∀ s ∈ ss, Q s) → (∀ c ∈ chunks, Q c) → Q sub →
      (∀ c ∈ (sentLoop maxSize ss chunks sub).1, Q c) ∧
        Q (sentLoop maxSize ss chunks sub).2 := by
  intro ss
  induction ss with
  | nil =>
    intro chunks sub _ hch hsub
    exact ⟨hch, hsub⟩
  | cons s ss ih =>
    intro chunks sub hss hch hsub
    have hs : Q s := hss s (List.mem_cons_self _ _)
    have hss' : ∀ x ∈ ss, Q x := fun x hx => hss x (List.mem_cons_of_mem _ hx)
    by_cases hc : sub.length + s.length + 1 > maxSize
    · simp only [sentLoop, if_pos hc]
      refine ih (chunks ++ [sub]) s hss' ?_ hs
      intro c hcm
      rcases List.mem_append.mp hcm with h1 | h1
      · exact hch c h1
      · simp only [List.mem_singleton] at h1
        exact h1 ▸ hsub
    · simp only [sentLoop, if_neg hc]
      refine ih chunks _ hss' hch ?_
      by_cases hse : sub = []
      · simp only [if_pos hse]
        exact hQlen s (by omega)
      · simp only [if_neg hse]
        exact hQlen _ (by simp only [List.length_append, List.length_cons]; omega)

theorem chunkLoop_bound (maxSize : Nat) (PS : List (List Char)) :
    ∀ (ps chunks : List (List Char)) (current : List Char),
      (∀ p ∈ ps, p ∈ PS) →
      (∀ c ∈ chunks, c.length ≤ maxSize ∨ ∃ p ∈ PS, c ∈ splitNl (replDot p)) →
      (current.length ≤ maxSize ∨ ∃ p ∈ PS, current ∈ splitNl (replDot p)) →
      (∀ c ∈ (chunkLoop maxSize ps chunks current).1,
        c.length ≤ maxSize ∨ ∃ p ∈ PS, c ∈ splitNl (replDot p)) ∧
      ((chunkLoop maxSize ps chunks current).2.length ≤ maxSize ∨
        ∃ p ∈ PS, (chunkLoop maxSize ps chunks current).2 ∈ splitNl (replDot p)) := by
  intro ps
  induction ps with
  | nil =>
    intro chunks current _ hch hcur
    exact ⟨hch, hcur⟩
  | cons para ps ih =>
    intro chunks current hps hch hcur
    have hpPS : para ∈ PS := hps para (List.mem_cons_self _ _)
    have hps' : ∀ p ∈ ps, p ∈ PS := fun p hp => hps p (List.mem_cons_of_mem _ hp)
    by_cases hover : current.length + para.length + 2 > maxSize
    · have hch1 : ∀ c ∈ (if current = [] then chunks else chunks ++ [current]),
          c.length ≤ maxSize ∨ ∃ p ∈ PS, c ∈ splitNl (replDot p) := by
        by_cases hce : current = []
        · simpa [hce] using hch
        · simp only [if_neg hce]
          intro c hcm
          rcases List.mem_append.mp hcm with h1 | h1
          · exact hch c h1
          · simp only [List.mem_singleton] at h1
            exact h1 ▸ hcur
      by_cases hbig : para.length > maxSize
      · simp only [chunkLoop, if_pos hover, if_pos hbig]
        have hsent := sentLoop_bound maxSize
          (fun c => c.length ≤ maxSize ∨ ∃ p ∈ PS, c ∈ splitNl (replDot p))
          (fun c hc => Or.inl hc)
          (splitNl (replDot para))
          (if current = [] then chunks else chunks ++ [current]) []
          (fun s hsm => Or.inr ⟨para, hpPS, hsm⟩) hch1 (Or.inl (by simp))
        exact ih _ _ hps' hsent.1 hsent.2
      · simp only [chunkLoop, if_pos hover, if_neg hbig]
        exact ih _ _ hps' hch1 (Or.inl (by omega))
    · simp only [chunkLoop, if_neg hover]
      refine ih _ _ hps' hch ?_
      by_cases hce : current = []
      · simp only [if_pos hce]
        exact Or.inl (by omega)
      · simp only [if_neg hce]
        exact Or.inl (by simp only [List.length_append, List.length_cons]; omega)

/-- Every chunk of `_chunk_document` is within the size bound or is a
single (code-notion) sentence of one of the paragraphs of the text, returned
unsplit. -/
theorem chunkDocument_bound (maxSize : Nat) (t : List Char) :
    ∀ c ∈ chunkDocument maxSize t,
      c.length ≤ maxSize ∨ ∃ p ∈ splitPara t, c ∈ splitNl (replDot p) := by
  by_cases hsmall : t.length ≤ maxSize
  · intro c hc
    simp only [chunkDocument, if_pos hsmall, List.mem_singleton] at hc
    exact Or.inl (hc ▸ hsmall)
  · have h := chunkLoop_bound maxSize (splitPara t) (splitPara t) [] []
      (fun p hp => hp) (by simp) (Or.inl (by simp))
    intro c hc
    simp only [chunkDocument, if_neg hsmall] at hc
    by_cases hcur : (chunkLoop maxSize (splitPara t) [] []).2 = []
    · simp only [hcur, if_pos rfl] at hc
      exact h.1 c hc
    · simp only [if_neg hcur] at hc
      rcases List.mem_append.mp hc with h1 | h1
      · exact h.1 c h1
      · simp only [List.mem_singleton] at h1
        exact h1 ▸ h.2

/-! ### Helper lemmas connecting the pipeline stages -/

theorem uniqueResults_eq (hits : List Hit) :
    uniqueResults hits =
      secondPass (firstPass hits [] [] []).1 (firstPass hits [] [] []).2.1
        (firstPass hits [] [] []).2.2 := rfl

theorem mem_uniqueResults_of_mem_output (hits : List Hit) (topk : Nat) (x : Hit)
    (hx : x ∈ (List.insertionSort scoreGe (uniqueResults hits)).take topk) :
    x ∈ uniqueResults hits :=
  (List.mem_insertionSort scoreGe).mp (List.mem_of_mem_take hx)

theorem toEntry_note_isCombined (x : Hit) (h : (toEntry x).note.isSome) :
    x.isCombined = true := by
  by_cases hx : x.isCombined
  · exact hx
  · simp [toEntry, hx] at h

theorem uniqueResults_not_combined (hits : List Hit)
    (hraw : ∀ h ∈ hits, h.isCombined = false) (x : Hit)
    (hx : x ∈ uniqueResults hits) (hcomb : x.isCombined = true) :
    ∃ p g, (p, g) ∈ (firstPass hits [] [] []).2.2 ∧ x = mkCombined p g := by
  rw [uniqueResults_eq] at hx
  rcases secondPass_src _ _ _ x hx with h1 | h1
  · rcases firstPass_ur_src hits [] [] [] x h1 with h2 | h2
    · simp at h2
    · rw [hraw x h2] at hcomb
      simp at hcomb
  · exact h1

/-- The dict `chunked_docs` built by the first pass (from an empty initial state)
satisfies the group invariant. -/
theorem firstPass_cdInv_init (hits : List Hit) :
    cdInv hits (firstPass hits [] [] []).2.2 :=
  firstPass_cdInv hits [] [] [] hits (fun _ hh => hh) (by intro pr hpr; simp at hpr)

/-- Under "no whole-document hit is named `p`", the first pass collects the
chunk group of `p` exactly as the filtered arrival-order sublist, and never
marks `p` as seen. -/
theorem firstPass_group_eq (hits : List Hit) (p : String)
    (hW : ∀ h ∈ hits, h.isChunk = false → h.filename ≠ p) :
    lookupD (firstPass hits [] [] []).2.2 p = chunksOf hits p ∧
      p ∉ (firstPass hits [] [] []).1 := by
  constructor
  · have := firstPass_cd_lookup hits [] [] [] p hW
    simpa [lookupD] using this
  · intro hp
    rcases firstPass_pd_src hits [] [] [] p hp with h1 | ⟨h, hh, hc, hf⟩
    · simp at h1
    · exact hW h hh hc hf

/-- The merged candidate emitted for an un-shadowed nonempty chunk group. -/
theorem uniqueResults_combined_mem (hits : List Hit) (p : String)
    (hW : ∀ h ∈ hits, h.isChunk = false → h.filename ≠ p)
    (hne : chunksOf hits p ≠ []) :
    mkCombined p (chunksOf hits p) ∈ uniqueResults hits := by
  obtain ⟨hlook, hpd⟩ := firstPass_group_eq hits p hW
  rw [uniqueResults_eq]
  have := secondPass_emits (firstPass hits [] [] []).2.2 (firstPass hits [] [] []).1
    (firstPass hits [] [] []).2.1 p hpd (by rw [hlook]; exact hne)
  rwa [hlook] at this

/-! ### Claim theorems -/

/-- C7: for every raw-hit list and every positive `top_k`, the list
returned by `semantic_search` has length at most `top_k` and its entries
are ordered by non-increasing score. -/
theorem semantic_search_topk_sorted (hits : List Hit) (topk : Nat)
    (htop : 0 < topk) :
    (semantic_search hits topk).length ≤ topk ∧
    ((semantic_search hits topk).map SearchEntry.score).Sorted (· ≥ ·) := by
  constructor
  · simp only [semantic_search, List.length_map]
    exact List.length_take_le ..
  · have hs : List.Sorted scoreGe (List.insertionSort scoreGe (uniqueResults hits)) :=
      List.sorted_insertionSort scoreGe _
    have htake : List.Sorted scoreGe
        ((List.insertionSort scoreGe (uniqueResults hits)).take topk) :=
      hs.sublist (List.take_sublist ..)
    simp only [semantic_search, List.map_map]
    exact List.pairwise_map.mpr (htake.imp fun {a b} hab => hab)

/-- Witness for C7 at a concrete input. -/
theorem semantic_search_topk_sorted_witness :
    (semantic_search hits6 1).length ≤ 1 ∧
    ((semantic_search hits6 1).map SearchEntry.score).Sorted (· ≥ ·) :=
  semantic_search_topk_sorted hits6 1 (by decide)

/-- C8: for a text longer than `max_size`, every chunk returned by
`_chunk_document` has length at most `max_size` except a chunk that is a
single sentence (an element of the sentence-splitting
by period-space replacement followed by a newline split, of one of the
paragraphs of the text)
whose own length exceeds `max_size`, returned unsplit; and a text of at
most `max_size` characters is returned as the single chunk `[t]`. -/
theorem chunk_split_size_spec (maxSize : Nat) (t : List Char) :
    (maxSize < t.length →
      ∀ c ∈ chunkDocument maxSize t,
        c.length ≤ maxSize ∨
          (maxSize < c.length ∧ ∃ p ∈ splitPara t, c ∈ splitNl (replDot p))) ∧
    (t.length ≤ maxSize → chunkDocument maxSize t = [t]) := by
  constructor
  · intro _ c hc
    rcases chunkDocument_bound maxSize t c hc with h | h
    · exact Or.inl h
    · by_cases hlen : c.length ≤ maxSize
      · exact Or.inl hlen
      · exact Or.inr ⟨by omega, h⟩
  · intro hs
    simp [chunkDocument, hs]

/-- Witness for C8 at concrete inputs, discharging both hypotheses. -/
theorem chunk_split_size_spec_witness :
    (∀ c ∈ chunkDocument 5 "aaa\n\nbbb".toList,
      c.length ≤ 5 ∨
        (5 < c.length ∧
          ∃ p ∈ splitPara "aaa\n\nbbb".toList, c ∈ splitNl (replDot p))) ∧
    chunkDocument 30 "short".toList = ["short".toList] :=
  ⟨(chunk_split_size_spec 5 "aaa\n\nbbb".toList).1 (by decide),
   (chunk_split_size_spec 30 "short".toList).2 (by decide)⟩

/-- C9: concatenating the chunks of `_chunk_document` in order reproduces
the input text up to whitespace normalisation at the paragraph/sentence
split boundaries: the sequence of non-whitespace characters is preserved
exactly, so no non-whitespace content is lost, duplicated or reordered. -/
theorem chunk_split_content_spec (maxSize : Nat) (t : List Char) :
    nonWs (chunkDocument maxSize t).flatten = nonWs t :=
  chunkDocument_nonWs maxSize t

/-- C3 counterexample: `QdrantRetriever.semantic_search` has no exception
handler, so a failed embedding call propagates instead of producing `[]`. -/
theorem search_failure_counterexample :
    qdrant_search_outcome (Except.error "embedding failed") 5 ≠
      Except.ok [] := by
  simp [qdrant_search_outcome]

/-- C3 (amended): on a failed embedding call or vector-store query,
`PineconeRetriever.semantic_search` returns the empty list without raising,
while `QdrantRetriever.semantic_search` propagates the failure to the
caller. -/
theorem search_failure_spec (e : String) (topk : Nat) :
    pinecone_search_outcome (Except.error e) topk = Except.ok [] ∧
    qdrant_search_outcome (Except.error e) topk = Except.error e :=
  ⟨rfl, rfl⟩

/-- C4 counterexample: the fast-rag Qdrant `generate_collection` run
against a populated collection does not leave the stored vectors
unchanged — `recreate_collection` drops them and the new points are
written. -/
theorem ingest_idempotence_counterexample :
    qdrant_generate_collection [1] [2] ≠ [1] := by
  decide

/-- C4 (amended): the community-search-rag Pinecone `generate_collection`
is idempotent — a collection with a non-zero vector count is left exactly
as it is, and a second run on the populated result writes nothing — while
the fast-rag Qdrant `generate_collection` unconditionally replaces the
stored vectors with the newly produced points. -/
theorem ingest_idempotent_spec (existing toWrite toWrite2 : List Nat)
    (h : existing ≠ []) :
    pinecone_generate_collection existing toWrite = existing ∧
    pinecone_generate_collection
      (pinecone_generate_collection existing toWrite) toWrite2 = existing ∧
    qdrant_generate_collection existing toWrite = toWrite := by
  have hpos : 0 < existing.length := List.length_pos.mpr h
  refine ⟨?_, ?_, rfl⟩
  · simp [pinecone_generate_collection, hpos]
  · simp [pinecone_generate_collection, hpos]

/-- Witness for C4 at a concrete input. -/
theorem ingest_idempotent_spec_witness :
    pinecone_generate_collection [7] [8] = [7] ∧
    pinecone_generate_collection (pinecone_generate_collection [7] [8]) [9] = [7] ∧
    qdrant_generate_collection [7] [8] = [8] :=
  ingest_idempotent_spec [7] [8] [9] (by decide)

/-- C5 counterexample: the fast-rag Qdrant ingester writes 1-based chunk
indices — for a document split into two chunks the written `chunk_index`
values are `[1, 2]`, not the 0-based contiguous `[0, 1]` the claim
requires. -/
theorem chunk_index_counterexample :
    ((qdrant_chunk_records "f" [['a'], ['b']]).map ChunkRecord.chunkIndex
        = [1, 2]) ∧
    ¬ ((qdrant_chunk_records "f" [['a'], ['b']]).map ChunkRecord.chunkIndex
        = List.range 2) := by
  decide

/-- C5 (amended): for a document ingested via the chunking fallback (all
chunk embeddings succeeding), the community-search-rag Pinecone ingester
writes 0-based contiguous chunk indices `0 .. total_chunks - 1`, while the
fast-rag Qdrant ingester writes 1-based contiguous indices
`1 .. total_chunks`; both write `total_chunks` equal to the number of
chunks and `parent_document` equal to the file name of the parent on every
record. -/
theorem chunk_index_spec (fileName : String) (chunks : List (List Char)) :
    (pinecone_chunk_records fileName chunks).map ChunkRecord.chunkIndex =
      List.range chunks.length ∧
    (qdrant_chunk_records fileName chunks).map ChunkRecord.chunkIndex =
      (List.range chunks.length).map (· + 1) ∧
    (∀ r ∈ pinecone_chunk_records fileName chunks,
      r.totalChunks = chunks.length ∧ r.parentDocument = fileName) ∧
    (∀ r ∈ qdrant_chunk_records fileName chunks,
      r.totalChunks = chunks.length ∧ r.parentDocument = fileName) := by
  refine ⟨?_, ?_, ?_, ?_⟩
  · rw [pinecone_chunk_records, List.map_map]
    have : (ChunkRecord.chunkIndex ∘ fun ic : Nat × List Char =>
        ({ filename := fileName ++ " [Part " ++ toString (ic.1 + 1) ++ "/" ++
            toString chunks.length ++ "]"
           chunkIndex := ic.1
           totalChunks := chunks.length
           parentDocument := fileName
           text := ic.2 } : ChunkRecord)) = Prod.fst := rfl
    rw [this, List.map_fst_zip]
    simp
  · rw [qdrant_chunk_records, List.map_map]
    have : (ChunkRecord.chunkIndex ∘ fun ic : Nat × List Char =>
        ({ filename := fileName ++ " [Part " ++ toString (ic.1 + 1) ++ "/" ++
            toString chunks.length ++ "]"
           chunkIndex := ic.1 + 1
           totalChunks := chunks.length
           parentDocument := fileName
           text := ic.2 } : ChunkRecord)) = (fun n => n + 1) ∘ Prod.fst := rfl
    rw [this, ← List.map_map, List.map_fst_zip]
    simp
  · intro r hr
    simp only [pinecone_chunk_records, List.mem_map] at hr
    obtain ⟨ic, _, hic⟩ := hr
    subst hic
    exact ⟨rfl, rfl⟩
  · intro r hr
    simp only [qdrant_chunk_records, List.mem_map] at hr
    obtain ⟨ic, _, hic⟩ := hr
    subst hic
    exact ⟨rfl, rfl⟩

/-- C1 counterexample: with six chunks of parent `"d"` whose highest score
(100) sits on the sixth chunk by index, the score of the merged entry is the max
of the five retained chunks (10), not the max over all constituent chunks
returned by the store — the source truncates to 5 chunks *before* taking
the max. -/
theorem merged_score_counterexample :
    ¬ ∀ e ∈ semantic_search hits6 5, e.note.isSome = true →
        e.score = maxScore (chunksOf hits6 "d") := by
  decide

/-- C1 (amended): the score of the merged entry equals the maximum score among
the *retained* chunks — the first 5 in ascending `chunk_index` order — not
among all constituent chunks of the parent document. -/
theorem merged_score_spec (hits : List Hit) (p : String)
    (hW : ∀ h ∈ hits, h.isChunk = false → h.filename ≠ p)
    (hne : chunksOf hits p ≠ []) :
    ∃ e ∈ uniqueResults hits, e.isCombined = true ∧ e.filename = p ∧
      e.score = maxScore ((List.insertionSort idxLe (chunksOf hits p)).take 5) := by
  exact ⟨mkCombined p (chunksOf hits p),
    uniqueResults_combined_mem hits p hW hne, rfl, rfl, rfl⟩

/-- Witness for the amended theorem of C1 at the concrete six-chunk input. -/
theorem merged_score_spec_witness :
    ∃ e ∈ uniqueResults hits6, e.isCombined = true ∧ e.filename = "d" ∧
      e.score = maxScore ((List.insertionSort idxLe (chunksOf hits6 "d")).take 5) :=
  merged_score_spec hits6 "d" (by decide) (by decide)

/-- C2: when a chunk group has more than 5 members and no whole-document
hit shares its parent, the merged candidate for that parent retains exactly
the 5 chunks of smallest `chunk_index` (every retained index is at
most every dropped index), and its text is the texts of the retained chunks
joined with a blank-line separator in ascending `chunk_index`
order. -/
theorem merged_retention_spec (hits : List Hit) (p : String)
    (hW : ∀ h ∈ hits, h.isChunk = false → h.filename ≠ p)
    (hsize : 5 < (chunksOf hits p).length) :
    ∃ e ∈ uniqueResults hits,
      e.isCombined = true ∧ e.filename = p ∧
      ((List.insertionSort idxLe (chunksOf hits p)).take 5).length = 5 ∧
      (List.insertionSort idxLe (chunksOf hits p)).Perm (chunksOf hits p) ∧
      (((List.insertionSort idxLe (chunksOf hits p)).take 5).map
        Hit.chunkIndex).Sorted (· ≤ ·) ∧
      (∀ a ∈ (List.insertionSort idxLe (chunksOf hits p)).take 5,
        ∀ b ∈ (List.insertionSort idxLe (chunksOf hits p)).drop 5,
          a.chunkIndex ≤ b.chunkIndex) ∧
      e.text = joinTexts
        (((List.insertionSort idxLe (chunksOf hits p)).take 5).map Hit.text) := by
  have hne : chunksOf hits p ≠ [] := by
    intro h
    rw [h] at hsize
    simp at hsize
  have hsorted : List.Sorted idxLe (List.insertionSort idxLe (chunksOf hits p)) :=
    List.sorted_insertionSort idxLe _
  refine ⟨mkCombined p (chunksOf hits p),
    uniqueResults_combined_mem hits p hW hne, rfl, rfl, ?_, ?_, ?_, ?_, rfl⟩
  · rw [List.length_take, List.length_insertionSort,
      Nat.min_eq_left (Nat.le_of_lt hsize)]
  · exact List.perm_insertionSort idxLe _
  · have htake := hsorted.sublist (List.take_sublist 5 _)
    exact List.pairwise_map.mpr (htake.imp fun {a b} hab => hab)
  · have hsplit : List.Pairwise idxLe
        ((List.insertionSort idxLe (chunksOf hits p)).take 5 ++
          (List.insertionSort idxLe (chunksOf hits p)).drop 5) := by
      rw [List.take_append_drop]
      exact hsorted
    exact fun a ha b hb => (List.pairwise_append.mp hsplit).2.2 a ha b hb

/-- Witness for C2 at the concrete six-chunk input. -/
theorem merged_retention_spec_witness :
    ∃ e ∈ uniqueResults hits6,
      e.isCombined = true ∧ e.filename = "d" ∧
      ((List.insertionSort idxLe (chunksOf hits6 "d")).take 5).length = 5 ∧
      (List.insertionSort idxLe (chunksOf hits6 "d")).Perm (chunksOf hits6 "d") ∧
      (((List.insertionSort idxLe (chunksOf hits6 "d")).take 5).map
        Hit.chunkIndex).Sorted (· ≤ ·) ∧
      (∀ a ∈ (List.insertionSort idxLe (chunksOf hits6 "d")).take 5,
        ∀ b ∈ (List.insertionSort idxLe (chunksOf hits6 "d")).drop 5,
          a.chunkIndex ≤ b.chunkIndex) ∧
      e.text = joinTexts
        (((List.insertionSort idxLe (chunksOf hits6 "d")).take 5).map Hit.text) :=
  merged_retention_spec hits6 "d" (by decide) (by decide)

/-- C6 counterexample: the raw hits hold both a whole-document hit named
`"f"` and a chunk group with parent `"f"`, yet with `top_k = 1` the output
does not contain the whole-document entry for `"f"` — a higher-scoring
document fills the single slot, so the part "the output contains the
whole-document entry" fails under `top_k` truncation. -/
theorem whole_doc_precedence_counterexample :
    (∃ h ∈ hitsC6, h.isChunk = false ∧ h.filename = "f") ∧
    (∃ h ∈ hitsC6, h.isChunk = true ∧ h.parentDocument = "f") ∧
    ¬ ∃ e ∈ semantic_search hitsC6 1, e.filename = "f" := by
  decide

/-- C6 (amended): whenever the raw hits contain a whole-document hit named
`f`, the pre-truncation candidate list contains that whole-document entry
and no merged chunk entry named `f`, and the final output never contains a
merged entry named `f` (for any `top_k` and any arrival order); the
whole-document entry itself appears in the output only when it ranks
within `top_k` by score. -/
theorem whole_doc_precedence_spec (hits : List Hit) (f : String)
    (hraw : ∀ h ∈ hits, h.isCombined = false)
    (hdoc : ∃ h ∈ hits, h.isChunk = false ∧ h.filename = f) :
    (∃ e ∈ uniqueResults hits,
      e.filename = f ∧ e.isChunk = false ∧ e.isCombined = false) ∧
    (∀ e ∈ uniqueResults hits, e.filename = f → e.isCombined = false) ∧
    (∀ topk : Nat, ∀ e ∈ semantic_search hits topk,
      e.filename = f → e.note = none) := by
  obtain ⟨h0, hh0, hc0, hf0⟩ := hdoc
  have hfpd : f ∈ (firstPass hits [] [] []).1 := by
    have := firstPass_pd_complete hits [] [] [] h0 hh0 hc0
    rwa [hf0] at this
  have hur_src := firstPass_ur_src hits [] [] []
  have part2 : ∀ e ∈ uniqueResults hits, e.filename = f → e.isCombined = false := by
    intro e he hef
    rw [uniqueResults_eq] at he
    have hmem := secondPass_filename_seen _ _ _ f hfpd e he hef
    rcases hur_src e hmem with h1 | h1
    · simp at h1
    · exact hraw e h1
  refine ⟨?_, part2, ?_⟩
  · obtain ⟨e, he, he1, he2⟩ :=
      firstPass_ur_covers hits [] [] [] (by simp) f hfpd
    have heu : e ∈ uniqueResults hits := by
      rw [uniqueResults_eq]
      exact secondPass_ur_mono _ _ _ e he
    exact ⟨e, heu, he1, he2, part2 e heu he1⟩
  · intro topk e he hef
    simp only [semantic_search, List.mem_map] at he
    obtain ⟨x, hx, hxe⟩ := he
    subst hxe
    have hxu := mem_uniqueResults_of_mem_output hits topk x hx
    have hxf : x.filename = f := hef
    have hxc : x.isCombined = false := part2 x hxu hxf
    simp [toEntry, hxc]

/-- Witness for the amended theorem of C6 at the concrete input. -/
theorem whole_doc_precedence_spec_witness :
    (∃ e ∈ uniqueResults hitsC6,
      e.filename = "f" ∧ e.isChunk = false ∧ e.isCombined = false) ∧
    (∀ e ∈ uniqueResults hitsC6, e.filename = "f" → e.isCombined = false) ∧
    (∀ topk : Nat, ∀ e ∈ semantic_search hitsC6 topk,
      e.filename = "f" → e.note = none) :=
  whole_doc_precedence_spec hitsC6 "f" (by decide) (by decide)

/-- C10: every merged (combined-chunks) entry in the output of
`semantic_search` carries, as its metadata `filename`, the common
`parent_document` value of its constituent chunk hits — the per-chunk
`"<filename> [Part i/N]"` names are replaced by the name of the parent
document — and its score and text are computed from those constituents. -/
theorem merged_filename_spec (hits : List Hit) (topk : Nat)
    (hraw : ∀ h ∈ hits, h.isCombined = false) :
    ∀ e ∈ semantic_search hits topk, e.note.isSome = true →
      ∃ g, g ≠ [] ∧
        (∀ h ∈ g, h ∈ hits ∧ h.isChunk = true ∧ h.parentDocument = e.filename) ∧
        e.score = maxScore ((List.insertionSort idxLe g).take 5) ∧
        e.text = joinTexts (((List.insertionSort idxLe g).take 5).map Hit.text) := by
  intro e he hnote
  simp only [semantic_search, List.mem_map] at he
  obtain ⟨x, hx, hxe⟩ := he
  subst hxe
  have hcomb : x.isCombined = true := toEntry_note_isCombined x hnote
  have hxu : x ∈ uniqueResults hits := mem_uniqueResults_of_mem_output hits topk x hx
  obtain ⟨p, g, hpg, hxeq⟩ := uniqueResults_not_combined hits hraw x hxu hcomb
  have hinv := firstPass_cdInv_init hits (p, g) hpg
  refine ⟨g, hinv.1, ?_, ?_, ?_⟩
  · intro h hh
    obtain ⟨h1, h2, h3⟩ := hinv.2 h hh
    refine ⟨h3, h1, ?_⟩
    rw [hxeq]
    exact h2
  · rw [hxeq]
    rfl
  · rw [hxeq]
    rfl

/-- Witness for C10 at the concrete six-chunk input and its merged
entry. -/
theorem merged_filename_spec_witness :
    ∃ g, g ≠ [] ∧
      (∀ h ∈ g, h ∈ hits6 ∧ h.isChunk = true ∧ h.parentDocument = entry6.filename) ∧
      entry6.score = maxScore ((List.insertionSort idxLe g).take 5) ∧
      entry6.text = joinTexts (((List.insertionSort idxLe g).take 5).map Hit.text) :=
  merged_filename_spec hits6 5 (by decide) entry6 (by decide) (by decide)
